import Mathlib

/-!
Verification of the privilege-separation proxy core in esky.sudo
(src/esky/sudo/init file).  The definitions below are a shallow
embedding of the Python source: SudoProxy start / close / run /
getattr-interception, the allow_from_sudo declaration table, the
allowlist lookup over the method-resolution order, and the old-style
ancestor walk.  Theorems settle the specification claims about this
code.
-/

/-- Values that a privileged method can receive or return and that the
pickle layer ships across the channel.  The exc constructor stands for a
Python exception object (its type name and message). -/
inductive Value where
  | vnone
  | vbool (b : Bool)
  | vint (n : Int)
  | vstr (s : String)
  | exc (ty : String) (msg : String)
deriving DecidableEq

/-- Embeds the Python builtin str applied to a value, as used by the
proxy wrapper when it serializes each positional argument. -/
def pyStr : Value → String
  | .vnone => "None"
  | .vbool true => "True"
  | .vbool false => "False"
  | .vint n => toString n
  | .vstr s => s
  | .exc ty msg => ty ++ ": " ++ msg

/-- An argument coercion function, as declared through allow_from_sudo:
it receives the raw string read from the pipe and builds the argument
value (the source passes Python callables such as str or int). -/
def Coercion : Type := String → Value

/-- One discrete message on the duplex pipe.  The source writes either
plain strings (method names, argument strings, READY, CLOSING, close)
or pickle.dumps blobs of a (success, payload) pair; the pick
constructor stands for such a blob. -/
inductive Msg where
  | str (s : String)
  | pick (success : Bool) (payload : Value)
deriving DecidableEq

/-- Raw string content of a message, as seen by code that treats a read
message as a string (method-name reads and argument reads in run). -/
def Msg.text : Msg → String
  | .str s => s
  | .pick _ _ => ""

/-- Python exceptions that the embedded code can raise. -/
inductive PyError where
  | attributeError (msg : String)
  | nameError (varname : String)
  | runtimeError (msg : String)
  | eofError
  | channelError
  | unpickleError
  | raised (e : Value)
deriving DecidableEq

/-- The dict of one class: method name to declaration state.  An entry
(m, some ts) means the class dict holds m and the stored function
carries the esky sudo argtypes attribute with value ts (it was
decorated with allow_from_sudo); (m, none) means m is present in the
dict but undecorated; an absent name raises KeyError in the source. -/
structure PyDict (α : Type) where
  entries : List (String × Option α)
deriving DecidableEq

/-- Embeds the dict access in _get_sudo_argtypes: none models KeyError,
some none models an undecorated attribute (AttributeError on the
argtypes read), some (some ts) a decorated method. -/
def PyDict.findEntry {α : Type} (d : PyDict α) (m : String) : Option (Option α) :=
  (d.entries.find? (fun p => p.1 == m)).map Prod.snd

/-- Declaration view of a single class: the argtypes list stored on a
decorated method named m of this class, if any. -/
def PyDict.declared {α : Type} (d : PyDict α) (m : String) : Option α :=
  match d.findEntry m with
  | some (some ts) => some ts
  | _ => none

/-- Embeds the loop of the source function _get_sudo_argtypes: walk the
given method resolution order; for each base try to read the argtypes
attribute of the dict entry and on KeyError or AttributeError move on;
return the first declared argtypes list, or None when the walk ends. -/
def lookupLoop {α : Type} : List (PyDict α) → String → Option α
  | [], _ => none
  | c :: cs, m =>
    match c.findEntry m with
    | some (some ts) => some ts
    | _ => lookupLoop cs m

/-- The target object wrapped by SudoProxy, for the new-style branch of
_get_mro: its class linearization (the dunder mro list of class dicts),
the behavior of its methods (Except carries the exception object a
method raises), and the func_name of the function bound at each
attribute (the wraps decorator preserves the original name, so for
methods declared in the usual way funcName is the identity on declared
names). -/
structure PyObj where
  mro : List (PyDict (List Coercion))
  methods : String → List Value → Except Value Value
  funcName : String → String

/-- Embeds _get_sudo_argtypes(obj, methname) for a new-style object:
the loop over _get_mro(obj), which is the class mro list. -/
def get_sudo_argtypes (t : PyObj) (m : String) : Option (List Coercion) :=
  lookupLoop t.mro m

/-- Modelled from the spec: the duplex Channel handed to the proxy by
the elevation launcher (spawn_sudo lives in sudo_win32 / sudo_unix,
which are not under src).  It is an ordered message stream: inbox holds
the messages available to read, sent the messages written so far, and
closed whether this end was closed. -/
structure Pipe where
  inbox : List Msg
  closed : Bool
  sent : List Msg
deriving DecidableEq

/-- Modelled from the spec: reading one message from the channel.  A
read at end of stream fails with EOFError (the serve loop in run
catches exactly EOFError around its reads, which pins this behavior);
an operation on a locally closed channel is a ChannelError. -/
def pipeRead (p : Pipe) : Except PyError (Msg × Pipe) :=
  if p.closed then .error .channelError
  else
    match p.inbox with
    | [] => .error .eofError
    | m :: rest => .ok (m, { p with inbox := rest })

/-- Modelled from the spec: writing one message to the channel.  A
write on a locally closed channel is a ChannelError. -/
def pipeWrite (p : Pipe) (m : Msg) : Except PyError Pipe :=
  if p.closed then .error .channelError
  else .ok { p with sent := p.sent ++ [m] }

/-- Modelled from the spec: closing this end of the channel releases
it; close itself is idempotent at the channel level. -/
def pipeClose (p : Pipe) : Pipe :=
  { p with closed := true }

/-- Message text of the AttributeError raised by the getattr
interception and (intendedly) by run for a name with no allowlist
entry, built exactly as the source format string does. -/
def notAllowedMsg (a : String) : String :=
  "attribute " ++ String.singleton (Char.ofNat 39) ++ a ++
    String.singleton (Char.ofNat 39) ++ " not allowed from sudo"

/-- Embeds the Python test attr.startswith applied to the underscore
prefix of length one: true exactly when the first character of the
name is an underscore. -/
def startsWithUnderscore (a : String) : Bool :=
  match a.data with
  | [] => false
  | c :: _ => c == '_'

/-- Embeds the gate of SudoProxy getattr interception (lines 94-100):
reject names starting with an underscore outright with
AttributeError(attr); reject names with no allowlist entry with the
not-allowed AttributeError; otherwise hand back the forwarding wrapper
(modelled as ok).  The pipe is threaded to make explicit that this
path performs no channel interaction. -/
def sudoGetattr (t : PyObj) (a : String) (p : Pipe) : Except PyError Unit × Pipe :=
  if startsWithUnderscore a then (.error (.attributeError a), p)
  else
    match get_sudo_argtypes t a with
    | none => (.error (.attributeError (notAllowedMsg a)), p)
    | some _ => (.ok (), p)

/-- Messages the proxy wrapper writes for one call (lines 105-107):
the func_name of the bound method, then str() of each positional
argument, in order. -/
def proxyRequestMsgs (t : PyObj) (a : String) (args : List Value) : List Msg :=
  .str (t.funcName a) :: args.map (fun v => .str (pyStr v))

/-- Embeds pickle.loads on a response message: a pickled pair loads to
its components; a plain string is not a valid pickle of the protocol
pair and fails. -/
def loads (m : Msg) : Except PyError (Bool × Value) :=
  match m with
  | .pick success payload => .ok (success, payload)
  | .str _ => .error .unpickleError

/-- Embeds the response handling of the proxy wrapper (lines 108-111):
unpickle (success, result); raise result when success is false, return
it otherwise. -/
def wrapperRecv (m : Msg) : Except PyError Value :=
  match loads m with
  | .error e => .error e
  | .ok (success, result) => if success then .ok result else .error (.raised result)

/-- Embeds SudoProxy.close (lines 61-64): write the close sentinel,
read the acknowledgement, close the pipe.  The source has no exception
handling here, so a failing write or read propagates and the final
pipe.close() is skipped. -/
def sudoClose (p : Pipe) : Except PyError Unit × Pipe :=
  match pipeWrite p (.str "close") with
  | .error e => (.error e, p)
  | .ok p1 =>
    match pipeRead p1 with
    | .error e => (.error e, p1)
    | .ok (_, p2) => (.ok (), pipeClose p2)

/-- Embeds SudoProxy.start (lines 55-59) from the point where
spawn_sudo has returned the pipe p: read one message; if it is not
READY, call close and then raise RuntimeError; an exception escaping
the read or the close call propagates unchanged. -/
def sudoStart (p : Pipe) : Except PyError Unit × Pipe :=
  match pipeRead p with
  | .error e => (.error e, p)
  | .ok (m, p1) =>
    if m = .str "READY" then (.ok (), p1)
    else
      match sudoClose p1 with
      | (.error e, p2) => (.error e, p2)
      | (.ok _, p2) => (.error (.runtimeError "failed to spawn helper app"), p2)

/-- Outcome of one iteration of the while loop in SudoProxy.run
(lines 70-90): written lists the responses written during the
iteration, rest the messages left unread.  handled means the loop goes
back to the next read; closing means the close sentinel arrived, the
acknowledgement was written and the loop breaks; eofBreak means a read
hit end of stream and the loop breaks silently; fatal means an
exception other than EOFError escaped the iteration and terminates
run. -/
inductive Outcome where
  | handled (written : List Msg) (rest : List Msg)
  | closing (written : List Msg) (rest : List Msg)
  | eofBreak (written : List Msg)
  | fatal (e : PyError) (written : List Msg)
deriving DecidableEq

/-- Embeds one iteration of the serve loop in SudoProxy.run: read a
method name; answer the close sentinel with CLOSING and stop; look up
the allowlist; when the lookup fails the source evaluates the unbound
variable attr inside the raise statement, so the iteration dies with
NameError (not the intended AttributeError); otherwise read one raw
string per declared coercion, apply each coercion, invoke the method,
and write the pickled (success, payload) pair. -/
def serveOne (t : PyObj) (inbox : List Msg) : Outcome :=
  match inbox with
  | [] => .eofBreak []
  | m :: rest =>
    let methname := m.text
    if methname = "close" then .closing [.str "CLOSING"] rest
    else
      match get_sudo_argtypes t methname with
      | none => .fatal (.nameError "attr") []
      | some argtypes =>
        if argtypes.length ≤ rest.length then
          let args := List.zipWith (fun (c : Coercion) (mm : Msg) => c mm.text)
            argtypes (rest.take argtypes.length)
          match t.methods methname args with
          | .ok res => .handled [.pick true res] (rest.drop argtypes.length)
          | .error e => .handled [.pick false e] (rest.drop argtypes.length)
        else .eofBreak []

/-- Helper for the termination of serve: a handled iteration consumed
at least the method-name message. -/
theorem serveOne_handled_length (t : PyObj) (inbox w rest : List Msg)
    (h : serveOne t inbox = .handled w rest) : rest.length < inbox.length := by
  unfold serveOne at h
  cases inbox with
  | nil => simp at h
  | cons m tl =>
    simp only [] at h
    split at h
    · simp at h
    · split at h
      · simp at h
      · split at h
        · split at h <;>
            (injection h with h1 h2; subst h2; simp [List.length_drop]; omega)
        · simp at h

/-- Embeds the whole while loop of SudoProxy.run: iterate serveOne
until a break or an escaping exception; returns all messages written
and the escaping exception, if any.  Termination holds because every
handled iteration consumes at least one message of the finite inbox. -/
def serve (t : PyObj) (inbox : List Msg) : List Msg × Option PyError :=
  match h : serveOne t inbox with
  | .eofBreak w => (w, none)
  | .closing w _ => (w, none)
  | .fatal e w => (w, some e)
  | .handled w rest =>
    let r := serve t rest
    (w ++ r.1, r.2)
termination_by inbox.length
decreasing_by
  exact serveOne_handled_length t inbox w rest h

/-- Unfolding lemma for serve when the iteration dies with an escaping
exception. -/
theorem serve_fatal (t : PyObj) (inbox w : List Msg) (e : PyError)
    (h : serveOne t inbox = .fatal e w) : serve t inbox = (w, some e) := by
  rw [serve.eq_def, h]

/-- Unfolding lemma for serve when the iteration handled one request
and the loop continues on the remaining messages. -/
theorem serve_handled (t : PyObj) (inbox w rest : List Msg)
    (h : serveOne t inbox = .handled w rest) :
    serve t inbox = (w ++ (serve t rest).1, (serve t rest).2) := by
  rw [serve.eq_def, h]

/-- Coercion that embeds the Python builtin str used as an argument
type declaration. -/
def strCoerce : Coercion := fun s => .vstr s

/-- Concrete target: an application object whose class declares
install_version with one str coercion, returning True for the version
string 1.2.3. -/
def appTarget : PyObj where
  mro := [⟨[("install_version", some [strCoerce])]⟩]
  methods := fun m args =>
    if m = "install_version" then
      match args with
      | [.vstr "1.2.3"] => .ok (.vbool true)
      | _ => .error (.exc "TypeError" "bad arguments")
    else .error (.exc "AttributeError" m)
  funcName := id

/-- Concrete target whose declared privileged method raises
PermissionError with message disk full. -/
def failTarget : PyObj where
  mro := [⟨[("install_version", some [strCoerce])]⟩]
  methods := fun _ _ => .error (.exc "PermissionError" "disk full")
  funcName := id

/-- Concrete target whose class declares the underscore-named method
_secret as allowed from sudo with no arguments. -/
def underscoreTarget : PyObj where
  mro := [⟨[("_secret", some [])]⟩]
  methods := fun m _ =>
    if m = "_secret" then .ok (.vstr "hidden") else .error (.exc "AttributeError" m)
  funcName := id

/-- Concrete target with an undecorated method helper and no allowlist
declarations at all. -/
def bareTarget : PyObj where
  mro := [⟨[("helper", none)]⟩]
  methods := fun _ _ => .ok .vnone
  funcName := id

/-- Concrete fresh pipe with nothing readable and nothing sent. -/
def pipe0 : Pipe := ⟨[], false, []⟩

/-- Dispatch lemma shared by the round-trip claims: on a well-formed
request for a non-close method name with an allowlist entry of ts and
one argument message per declared coercion, the serve iteration reads
exactly the argument messages, applies each coercion to the raw string
of its message, invokes the method on the coerced arguments, writes
the single pickled response, and leaves the following messages
untouched. -/
theorem serveOne_request (t : PyObj) (m : String) (ts : List Coercion)
    (args : List Value) (extra : List Msg)
    (hclose : m ≠ "close")
    (hlk : get_sudo_argtypes t m = some ts)
    (hlen : args.length = ts.length) :
    serveOne t (.str m :: (args.map (fun v => .str (pyStr v)) ++ extra)) =
      match t.methods m
          (List.zipWith (fun (c : Coercion) (a : Value) => c (pyStr a)) ts args) with
      | .ok res => .handled [.pick true res] extra
      | .error e => .handled [.pick false e] extra := by
  have hmap : (args.map (fun v => Msg.str (pyStr v))).length = ts.length := by
    simpa using hlen
  have hle : ts.length ≤ (args.map (fun v => Msg.str (pyStr v)) ++ extra).length := by
    simp only [List.length_append, hmap]
    omega
  unfold serveOne
  simp only [Msg.text, hclose, if_false, hlk]
  rw [if_pos hle, List.take_left' hmap, List.drop_left' hmap, List.zipWith_map_right]

/-- C1 counterexample: the class of this target declares the
underscore-named method _secret allowed from sudo, yet the getattr
interception on the proxy rejects it with AttributeError while the
request-time path in run accepts it, executes the method and writes a
success response - the two sides diverge on a declared-allowed name. -/
theorem C1_divergence_on_underscore_name :
    get_sudo_argtypes underscoreTarget "_secret" = some [] ∧
    (sudoGetattr underscoreTarget "_secret" pipe0).1 =
      .error (.attributeError "_secret") ∧
    serveOne underscoreTarget [.str "_secret"] =
      .handled [.pick true (.vstr "hidden")] [] := by
  refine ⟨rfl, rfl, rfl⟩

/-- C1 (amended): for every method name that does not begin with an
underscore and is not the shutdown sentinel close, the pre-flight gate
of the proxy and the request-time allowlist check of the serve loop
agree - the proxy hands back a forwarding wrapper exactly when the
serve loop does not die on the allowlist check for that name. -/
theorem C1_checks_agree (t : PyObj) (a : String) (p : Pipe)
    (hunder : startsWithUnderscore a = false) (hclose : a ≠ "close") :
    ((sudoGetattr t a p).1 = .ok ()) ↔
      serveOne t [.str a] ≠ .fatal (.nameError "attr") [] := by
  unfold sudoGetattr serveOne
  simp only [hunder, Bool.false_eq_true, if_false, Msg.text, hclose]
  cases hlk : get_sudo_argtypes t a with
  | none => simp
  | some ts =>
    simp only []
    constructor
    · intro _
      split
      · split <;> simp
      · simp
    · intro _
      trivial

/-- C1 witness: both checks agree on the concrete declared method
install_version of the application target. -/
theorem C1_checks_agree_witness :
    (startsWithUnderscore "install_version" = false) ∧
    ("install_version" ≠ "close") ∧
    (((sudoGetattr appTarget "install_version" pipe0).1 = .ok ()) ↔
      serveOne appTarget [.str "install_version"] ≠
        .fatal (.nameError "attr") []) :=
  ⟨rfl, by decide, C1_checks_agree appTarget "install_version" pipe0 rfl (by decide)⟩

/-- C2: when the serve loop reads a method name with no allowlist entry
anywhere, the raise statement in run evaluates the unbound variable
attr, so the loop dies with NameError instead of the AttributeError
naming the method that both the spec and the message template intend;
the loop does terminate loudly (the exception escapes run), with no
response written. -/
theorem C2_unknown_method_dies_with_nameerror :
    serveOne bareTarget [.str "evil"] = .fatal (.nameError "attr") [] ∧
    serve bareTarget [.str "evil"] = ([], some (.nameError "attr")) :=
  ⟨rfl, serve_fatal bareTarget [.str "evil"] [] (.nameError "attr") rfl⟩

/-- C3: round trip for an allowed method that returns a value: the
proxy wrapper is handed out by the getattr gate, writes the method
name followed by the str() form of each argument in order, the serve
loop consumes exactly the declared number of argument messages,
applies each declared coercion to its raw string, invokes the real
method, answers with a single pickled success response, and the
wrapper returns exactly the value the method returned. -/
theorem C3_call_roundtrip (t : PyObj) (m : String) (ts : List Coercion)
    (args : List Value) (v : Value) (extra : List Msg) (p : Pipe)
    (hname : t.funcName m = m)
    (hunder : startsWithUnderscore m = false)
    (hclose : m ≠ "close")
    (hlk : get_sudo_argtypes t m = some ts)
    (hlen : args.length = ts.length)
    (hres : t.methods m
      (List.zipWith (fun (c : Coercion) (a : Value) => c (pyStr a)) ts args) = .ok v) :
    ((sudoGetattr t m p).1 = .ok ()) ∧
    proxyRequestMsgs t m args = .str m :: args.map (fun a => .str (pyStr a)) ∧
    serveOne t (proxyRequestMsgs t m args ++ extra) = .handled [.pick true v] extra ∧
    wrapperRecv (.pick true v) = .ok v := by
  have hreq : proxyRequestMsgs t m args =
      .str m :: args.map (fun a => .str (pyStr a)) := by
    unfold proxyRequestMsgs
    rw [hname]
  refine ⟨?_, hreq, ?_, rfl⟩
  · unfold sudoGetattr
    simp [hunder, hlk]
  · rw [hreq]
    simpa using (serveOne_request t m ts args extra hclose hlk hlen).trans (by rw [hres])

/-- C3 witness: the scenario of the spec, install_version called with
the string 1.2.3 on the application target, returning True. -/
theorem C3_call_roundtrip_witness :
    ((sudoGetattr appTarget "install_version" pipe0).1 = .ok ()) ∧
    proxyRequestMsgs appTarget "install_version" [.vstr "1.2.3"] =
      .str "install_version" :: [Value.vstr "1.2.3"].map (fun a => .str (pyStr a)) ∧
    serveOne appTarget
        (proxyRequestMsgs appTarget "install_version" [.vstr "1.2.3"] ++ []) =
      .handled [.pick true (.vbool true)] [] ∧
    wrapperRecv (.pick true (.vbool true)) = .ok (.vbool true) :=
  C3_call_roundtrip appTarget "install_version" [strCoerce] [.vstr "1.2.3"]
    (.vbool true) [] pipe0 rfl rfl (by decide) rfl rfl rfl

/-- C4: when the invoked privileged method raises an exception, the
serve iteration writes a single pickled failure response carrying the
exception object, the loop goes on serving the remaining messages, and
the proxy wrapper re-raises exactly that exception object. -/
theorem C4_exception_roundtrip (t : PyObj) (m : String) (ts : List Coercion)
    (args : List Value) (e : Value) (extra : List Msg)
    (hname : t.funcName m = m)
    (hclose : m ≠ "close")
    (hlk : get_sudo_argtypes t m = some ts)
    (hlen : args.length = ts.length)
    (hres : t.methods m
      (List.zipWith (fun (c : Coercion) (a : Value) => c (pyStr a)) ts args) = .error e) :
    serveOne t (proxyRequestMsgs t m args ++ extra) = .handled [.pick false e] extra ∧
    serve t (proxyRequestMsgs t m args ++ extra) =
      (.pick false e :: (serve t extra).1, (serve t extra).2) ∧
    wrapperRecv (.pick false e) = .error (.raised e) := by
  have hreq : proxyRequestMsgs t m args =
      .str m :: args.map (fun a => .str (pyStr a)) := by
    unfold proxyRequestMsgs
    rw [hname]
  have hone : serveOne t (proxyRequestMsgs t m args ++ extra) =
      .handled [.pick false e] extra := by
    rw [hreq]
    simpa using (serveOne_request t m ts args extra hclose hlk hlen).trans (by rw [hres])
  refine ⟨hone, ?_, rfl⟩
  simpa using serve_handled t _ [.pick false e] extra hone

/-- C4 witness: the spec scenario of a privileged method raising
PermissionError with message disk full; the failure response is
written, the loop serves the next request (a close sentinel) normally,
and the wrapper re-raises the exception object. -/
theorem C4_exception_roundtrip_witness :
    serveOne failTarget
        (proxyRequestMsgs failTarget "install_version" [.vstr "1.2.3"] ++ [.str "close"]) =
      .handled [.pick false (.exc "PermissionError" "disk full")] [.str "close"] ∧
    serve failTarget
        (proxyRequestMsgs failTarget "install_version" [.vstr "1.2.3"] ++ [.str "close"]) =
      (.pick false (.exc "PermissionError" "disk full") ::
        (serve failTarget [.str "close"]).1, (serve failTarget [.str "close"]).2) ∧
    wrapperRecv (.pick false (.exc "PermissionError" "disk full")) =
      .error (.raised (.exc "PermissionError" "disk full")) :=
  C4_exception_roundtrip failTarget "install_version" [strCoerce] [.vstr "1.2.3"]
    (.exc "PermissionError" "disk full") [.str "close"] rfl (by decide) rfl rfl rfl

/-- C5: for a method name with no allowlist declaration anywhere in
the chain, attribute access on the proxy raises an AttributeError (the
NotAllowedError of the spec) immediately and the pipe is returned
untouched - nothing was written to the channel. -/
theorem C5_not_allowed_rejected_without_write (t : PyObj) (a : String) (p : Pipe)
    (h : get_sudo_argtypes t a = none) :
    ∃ msg, sudoGetattr t a p = (.error (.attributeError msg), p) := by
  unfold sudoGetattr
  cases hu : startsWithUnderscore a with
  | true => exact ⟨a, by simp⟩
  | false => exact ⟨notAllowedMsg a, by simp [h]⟩

/-- C5 witness: the undecorated method helper of the bare target is
rejected with no channel write. -/
theorem C5_not_allowed_rejected_without_write_witness :
    (get_sudo_argtypes bareTarget "helper" = none) ∧
    ∃ msg, sudoGetattr bareTarget "helper" pipe0 = (.error (.attributeError msg), pipe0) :=
  ⟨rfl, C5_not_allowed_rejected_without_write bareTarget "helper" pipe0 rfl⟩

/-- C10: attribute access for any name beginning with an underscore
raises AttributeError at once, for every target whatsoever - the
allowlist is never consulted - and the pipe is returned untouched. -/
theorem C10_underscore_rejected (t : PyObj) (a : String) (p : Pipe)
    (h : startsWithUnderscore a = true) :
    sudoGetattr t a p = (.error (.attributeError a), p) := by
  unfold sudoGetattr
  simp [h]

/-- C10 witness: the underscore target declares _secret as allowed
from sudo, yet proxy attribute access still rejects it untouched. -/
theorem C10_underscore_rejected_witness :
    (startsWithUnderscore "_secret" = true) ∧
    (get_sudo_argtypes underscoreTarget "_secret" = some []) ∧
    sudoGetattr underscoreTarget "_secret" pipe0 =
      (.error (.attributeError "_secret"), pipe0) :=
  ⟨rfl, rfl, C10_underscore_rejected underscoreTarget "_secret" pipe0 rfl⟩

/-- C7 counterexample: the helper writes one bad message and dies, so
the acknowledgement read inside the cleanup close call hits end of
stream; start propagates EOFError - not the RuntimeError spawn
failure - and the pipe is left unclosed. -/
theorem C7_bad_sentinel_then_dead_peer :
    (sudoStart ⟨[.str "OOPS"], false, []⟩).1 = .error .eofError ∧
    ((sudoStart ⟨[.str "OOPS"], false, []⟩).2).closed = false :=
  ⟨rfl, rfl⟩

/-- C7 (amended): when the first message is not READY and the channel
still yields the acknowledgement of the shutdown request, start runs
the close handshake (writes the close sentinel, reads one reply),
closes the pipe, and then raises the RuntimeError spawn failure. -/
theorem C7_start_bad_sentinel (m r : Msg) (rs sent : List Msg)
    (hm : m ≠ .str "READY") :
    sudoStart ⟨m :: r :: rs, false, sent⟩ =
      (.error (.runtimeError "failed to spawn helper app"),
       ⟨rs, true, sent ++ [.str "close"]⟩) := by
  simp [sudoStart, sudoClose, pipeRead, pipeWrite, pipeClose, hm]

/-- C7 witness: a concrete bad sentinel with the acknowledgement still
available. -/
theorem C7_start_bad_sentinel_witness :
    (Msg.str "DENIED" ≠ Msg.str "READY") ∧
    sudoStart ⟨[.str "DENIED", .str "CLOSING"], false, []⟩ =
      (.error (.runtimeError "failed to spawn helper app"),
       ⟨[], true, [.str "close"]⟩) :=
  ⟨by decide, C7_start_bad_sentinel (.str "DENIED") (.str "CLOSING") [] [] (by decide)⟩

/-- C8 counterexample: with the elevated process already dead (nothing
to read), close raises EOFError to its caller and the channel is NOT
released - the source close has no handling for the failed
acknowledgement read, so the final pipe.close() line is never
reached. -/
theorem C8_close_after_peer_death_raises :
    (sudoClose ⟨[], false, []⟩).1 = .error .eofError ∧
    ((sudoClose ⟨[], false, []⟩).2).closed = false :=
  ⟨rfl, rfl⟩

/-- C8 (amended): when the elevated process has already died, the read
of the shutdown acknowledgement inside close fails with end of stream
and that EOFError propagates out of close; the shutdown request has
been written but the channel is left unreleased. -/
theorem C8_close_dead_peer (sent : List Msg) :
    sudoClose ⟨[], false, sent⟩ =
      (.error .eofError, ⟨[], false, sent ++ [.str "close"]⟩) := by
  simp [sudoClose, pipeWrite, pipeRead]

/-- C9 counterexample: a first close on a live channel succeeds and
closes the pipe, after which a second close raises a channel error on
its very first write - close is not idempotent. -/
theorem C9_second_close_raises_concretely :
    (sudoClose ⟨[.str "CLOSING"], false, []⟩).1 = .ok () ∧
    ((sudoClose ⟨[.str "CLOSING"], false, []⟩).2).closed = true ∧
    (sudoClose (sudoClose ⟨[.str "CLOSING"], false, []⟩).2).1 =
      .error .channelError :=
  ⟨rfl, rfl, rfl⟩

/-- C9 (amended): calling close on an already closed pipe raises a
channel error from the write of the shutdown request (it does not
hang); close is therefore not idempotent in the source. -/
theorem C9_close_on_closed_pipe (p : Pipe) (h : p.closed = true) :
    sudoClose p = (.error .channelError, p) := by
  simp [sudoClose, pipeWrite, h]

/-- C9 witness: the pipe left by a completed first close. -/
theorem C9_close_on_closed_pipe_witness :
    (((sudoClose ⟨[.str "CLOSING"], false, []⟩).2).closed = true) ∧
    sudoClose (sudoClose ⟨[.str "CLOSING"], false, []⟩).2 =
      (.error .channelError, (sudoClose ⟨[.str "CLOSING"], false, []⟩).2) :=
  ⟨rfl, C9_close_on_closed_pipe (sudoClose ⟨[.str "CLOSING"], false, []⟩).2 rfl⟩

/-- An old-style class for the legacy branch of _get_mro: its dict
(with the same declaration states as PyDict, argument types abstracted
to opaque tags) and its base classes.  Class hierarchies are finite
and acyclic, which the tree structure captures; a diamond is
represented by repeating the shared ancestor, and the seen set of the
source deduplicates it. -/
inductive OClass where
  | mk (dict : List (String × Option (List Nat))) (bases : List OClass)

/-- Base classes of an old-style class. -/
def OClass.bases : OClass → List OClass
  | .mk _ bs => bs

/-- Dict of an old-style class. -/
def OClass.dictOf : OClass → List (String × Option (List Nat))
  | .mk d _ => d

/-- Dict view of an old-style class for the allowlist walk. -/
def OClass.toDict (c : OClass) : PyDict (List Nat) :=
  ⟨c.dictOf⟩

mutual

/-- Structural decidable equality on old-style classes, standing in
for the membership test of the Python seen set. -/
def decEqOClass : (a b : OClass) → Decidable (a = b)
  | .mk d1 bs1, .mk d2 bs2 =>
    match decEq d1 d2, decEqOClassList bs1 bs2 with
    | isTrue h1, isTrue h2 => isTrue (by rw [h1, h2])
    | isFalse h1, _ => isFalse (by intro h; injection h with hd hb; exact h1 hd)
    | _, isFalse h2 => isFalse (by intro h; injection h with hd hb; exact h2 hb)

/-- Structural decidable equality on lists of old-style classes. -/
def decEqOClassList : (a b : List OClass) → Decidable (a = b)
  | [], [] => isTrue rfl
  | [], _ :: _ => isFalse (by intro h; exact List.noConfusion h)
  | _ :: _, [] => isFalse (by intro h; exact List.noConfusion h)
  | a :: as, b :: bs =>
    match decEqOClass a b, decEqOClassList as bs with
    | isTrue h1, isTrue h2 => isTrue (by rw [h1, h2])
    | isFalse h1, _ => isFalse (by intro h; injection h with hd hb; exact h1 hd)
    | _, isFalse h2 => isFalse (by intro h; injection h with hd hb; exact h2 hb)

end

instance : DecidableEq OClass := decEqOClass

/-- Size of the bases list is below the size of the class. -/
theorem OClass.sizeOf_bases_lt (c : OClass) : sizeOf c.bases < sizeOf c := by
  cases c with
  | mk d bs => simp [OClass.bases]

/-- Size of a member of the bases list is below the size of the
class. -/
theorem OClass.sizeOf_mem_bases_lt {b : OClass} {c : OClass}
    (h : b ∈ c.bases) : sizeOf b < sizeOf c :=
  lt_trans (List.sizeOf_lt_of_mem h) c.sizeOf_bases_lt

/-- Size of any class is positive. -/
theorem OClass.sizeOf_pos (c : OClass) : 0 < sizeOf c := by
  cases c with
  | mk d bs => simp

/-- Embeds the generator _get_oldstyle_mro consumed eagerly, turned
into the equivalent accumulator form over the list of bases still to
visit: skip a base already in seen; otherwise yield it, add it to
seen, recurse into its bases, then continue with the remaining bases.
The first component is the list of classes yielded, the second the
final seen set (as a list, only membership matters). -/
def oldMroAux : List OClass → List OClass → List OClass × List OClass
  | [], seen => ([], seen)
  | b :: bs, seen =>
    if b ∈ seen then oldMroAux bs seen
    else
      let r1 := oldMroAux b.bases (seen ++ [b])
      let r2 := oldMroAux bs r1.2
      (b :: r1.1 ++ r2.1, r2.2)
termination_by l _ => sizeOf l
decreasing_by
  all_goals simp_wf
  all_goals try omega
  have h1 := OClass.sizeOf_bases_lt b
  omega

/-- Embeds _get_oldstyle_mro(cls, set()): yield the class itself, then
walk its bases with the class already in the seen set. -/
def get_oldstyle_mro (c : OClass) : List OClass :=
  c :: (oldMroAux c.bases [c]).1

/-- Embeds _get_sudo_argtypes(obj, methname) for an old-style object:
the same walk loop, over the computed old-style method resolution
order. -/
def get_sudo_argtypes_old (c : OClass) (m : String) : Option (List Nat) :=
  lookupLoop ((get_oldstyle_mro c).map OClass.toDict) m

/-- Ancestor paths of bounded length: reachN n c y holds when y can be
reached from c through at most n base-class steps. -/
def reachN : Nat → OClass → OClass → Prop
  | 0, c, y => y = c
  | n + 1, c, y => y = c ∨ ∃ b ∈ c.bases, reachN n b y

/-- Ancestor relation: y is c itself or a class reachable from c
through base-class links.  This is the full ancestor chain of the
claim. -/
def Reach (c y : OClass) : Prop := ∃ n, reachN n c y

/-- Reach is reflexive. -/
theorem Reach.refl (c : OClass) : Reach c c := ⟨0, rfl⟩

/-- Reach extends through one base-class step. -/
theorem Reach.step {c b y : OClass} (hb : b ∈ c.bases) (h : Reach b y) :
    Reach c y := by
  obtain ⟨n, hn⟩ := h
  exact ⟨n + 1, Or.inr ⟨b, hb, hn⟩⟩

/-- Sizes never grow along bounded ancestor paths. -/
theorem reachN_sizeOf_le {n : Nat} {c y : OClass} (h : reachN n c y) :
    sizeOf y ≤ sizeOf c := by
  induction n generalizing c with
  | zero => rw [h]
  | succ n ih =>
    rcases h with rfl | ⟨b, hb, hby⟩
    · exact le_rfl
    · exact le_of_lt (lt_of_le_of_lt (ih hby) (OClass.sizeOf_mem_bases_lt hb))

/-- Sizes never grow along the ancestor relation. -/
theorem Reach.sizeOf_le {c y : OClass} (h : Reach c y) : sizeOf y ≤ sizeOf c := by
  obtain ⟨n, hn⟩ := h
  exact reachN_sizeOf_le hn

/-- A base never reaches back to the class it hangs from. -/
theorem not_reach_of_mem_bases {c b : OClass} (hb : b ∈ c.bases) :
    ¬ Reach b c := by
  intro h
  exact absurd (h.sizeOf_le) (not_le.mpr (OClass.sizeOf_mem_bases_lt hb))

/-- Unfolding lemma: the walk over an empty list yields nothing. -/
theorem oldMroAux_nil (s : List OClass) : oldMroAux [] s = ([], s) := by
  rw [oldMroAux.eq_def]

/-- Unfolding lemma: a base already seen is skipped. -/
theorem oldMroAux_cons_mem {b : OClass} (l s : List OClass) (h : b ∈ s) :
    oldMroAux (b :: l) s = oldMroAux l s := by
  rw [oldMroAux.eq_def]
  simp [h]

/-- Unfolding lemma: an unseen base is yielded, then its bases are
walked with it added to seen, then the remaining bases are walked. -/
theorem oldMroAux_cons_not_mem {b : OClass} (l s : List OClass) (h : ¬ b ∈ s) :
    oldMroAux (b :: l) s =
      (b :: (oldMroAux b.bases (s ++ [b])).1 ++
        (oldMroAux l (oldMroAux b.bases (s ++ [b])).2).1,
       (oldMroAux l (oldMroAux b.bases (s ++ [b])).2).2) := by
  rw [oldMroAux.eq_def]
  simp [h]

/-- Bounded form of the seen-set law: the final seen set is the
initial one extended by exactly the yielded classes, in order. -/
theorem oldMroAux_seen_eq_bounded :
    ∀ (N : Nat) (l s : List OClass), sizeOf l ≤ N →
      (oldMroAux l s).2 = s ++ (oldMroAux l s).1 := by
  intro N
  induction N with
  | zero =>
    intro l s h
    exact absurd h (by cases l <;> simp)
  | succ N ih =>
    intro l s h
    match l with
    | [] => simp [oldMroAux_nil]
    | b :: bs =>
      have hsb : 0 < sizeOf b := OClass.sizeOf_pos b
      have hs : sizeOf (b :: bs) = 1 + sizeOf b + sizeOf bs := by simp
      by_cases hb : b ∈ s
      · rw [oldMroAux_cons_mem bs s hb]
        exact ih bs s (by omega)
      · rw [oldMroAux_cons_not_mem bs s hb]
        have h1 : sizeOf b.bases ≤ N := by
          have := OClass.sizeOf_bases_lt b
          omega
        have h2 : sizeOf bs ≤ N := by omega
        simp only []
        rw [ih bs _ h2, ih b.bases _ h1]
        simp

/-- The final seen set is the initial one extended by exactly the
yielded classes. -/
theorem oldMroAux_seen_eq (l s : List OClass) :
    (oldMroAux l s).2 = s ++ (oldMroAux l s).1 :=
  oldMroAux_seen_eq_bounded (sizeOf l) l s le_rfl

/-- Bounded soundness: every yielded class is an ancestor of one of
the listed bases. -/
theorem oldMroAux_sound_bounded :
    ∀ (N : Nat) (l s : List OClass) (x : OClass), sizeOf l ≤ N →
      x ∈ (oldMroAux l s).1 → ∃ b ∈ l, Reach b x := by
  intro N
  induction N with
  | zero =>
    intro l s x h
    exact absurd h (by cases l <;> simp)
  | succ N ih =>
    intro l s x h hx
    match l with
    | [] => simp [oldMroAux_nil] at hx
    | b :: bs =>
      have hsb : 0 < sizeOf b := OClass.sizeOf_pos b
      have hs : sizeOf (b :: bs) = 1 + sizeOf b + sizeOf bs := by simp
      have h1 : sizeOf b.bases ≤ N := by
        have := OClass.sizeOf_bases_lt b
        omega
      have h2 : sizeOf bs ≤ N := by omega
      by_cases hb : b ∈ s
      · rw [oldMroAux_cons_mem bs s hb] at hx
        obtain ⟨b2, hb2, hr⟩ := ih bs s x h2 hx
        exact ⟨b2, List.mem_cons_of_mem b hb2, hr⟩
      · rw [oldMroAux_cons_not_mem bs s hb] at hx
        simp only [List.mem_cons, List.mem_append] at hx
        rcases hx with (rfl | hx1) | hx2
        · exact ⟨x, List.mem_cons_self x bs, Reach.refl x⟩
        · obtain ⟨b2, hb2, hr⟩ := ih b.bases (s ++ [b]) x h1 hx1
          exact ⟨b, List.mem_cons_self b bs, Reach.step hb2 hr⟩
        · obtain ⟨b2, hb2, hr⟩ := ih bs _ x h2 hx2
          exact ⟨b2, List.mem_cons_of_mem b hb2, hr⟩

/-- Soundness: every yielded class is an ancestor of one of the listed
bases. -/
theorem oldMroAux_sound {l s : List OClass} {x : OClass}
    (hx : x ∈ (oldMroAux l s).1) : ∃ b ∈ l, Reach b x :=
  oldMroAux_sound_bounded (sizeOf l) l s x le_rfl hx

/-- One-step case analysis of the ancestor relation. -/
theorem Reach.cases_step {c y : OClass} (h : Reach c y) :
    y = c ∨ ∃ b ∈ c.bases, Reach b y := by
  obtain ⟨n, hn⟩ := h
  cases n with
  | zero => exact Or.inl hn
  | succ n =>
    rcases hn with rfl | ⟨b, hb, hby⟩
    · exact Or.inl rfl
    · exact Or.inr ⟨b, hb, n, hby⟩

/-- Covering triple for the old-style walk, bounded by a size budget.
First part: every ancestor of a class c is in the seen set left by the
walk of the bases of c started with c in seen, unless it is reachable
from a class of the initial seen set that is itself an ancestor of c.
Second part: the same for an ancestor of any listed base.  Third part:
the same for an ancestor of any class yielded by the walk. -/
theorem oldMroAux_cover :
    ∀ N : Nat,
    (∀ (c : OClass) (s : List OClass) (y : OClass), sizeOf c ≤ N → Reach c y →
      y ∈ (oldMroAux c.bases (s ++ [c])).2 ∨ ∃ x ∈ s, Reach x y ∧ Reach c x) ∧
    (∀ (l s : List OClass) (b y : OClass), sizeOf l ≤ N → b ∈ l → Reach b y →
      y ∈ (oldMroAux l s).2 ∨ ∃ x ∈ s, Reach x y ∧ ∃ b2 ∈ l, Reach b2 x) ∧
    (∀ (l s : List OClass) (x y : OClass), sizeOf l ≤ N →
      x ∈ (oldMroAux l s).1 → Reach x y →
      y ∈ (oldMroAux l s).2 ∨ ∃ z ∈ s, Reach z y ∧ ∃ b2 ∈ l, Reach b2 z) := by
  intro N
  induction N with
  | zero =>
    refine ⟨fun c s y hc _ => absurd hc ?_, fun l s b y hl hb _ => absurd hl ?_,
      fun l s x y hl _ _ => absurd hl ?_⟩
    · have := OClass.sizeOf_pos c
      omega
    · cases l <;> simp
    · cases l <;> simp
  | succ N ih =>
    obtain ⟨ihV, ihC, ihP⟩ := ih
    have hV : ∀ (c : OClass) (s : List OClass) (y : OClass),
        sizeOf c ≤ N + 1 → Reach c y →
        y ∈ (oldMroAux c.bases (s ++ [c])).2 ∨ ∃ x ∈ s, Reach x y ∧ Reach c x := by
      intro c s y hc hr
      rcases hr.cases_step with rfl | ⟨b, hb, hby⟩
      · left
        rw [oldMroAux_seen_eq]
        exact List.mem_append_left _ (List.mem_append_right _ (by simp))
      · have hbb : sizeOf c.bases ≤ N := by
          have := OClass.sizeOf_bases_lt c
          omega
        rcases ihC c.bases (s ++ [c]) b y hbb hb hby with hy | ⟨x, hx, hxy, b2, hb2, hb2x⟩
        · exact Or.inl hy
        · rcases List.mem_append.mp hx with hxs | hxc
          · exact Or.inr ⟨x, hxs, hxy, Reach.step hb2 hb2x⟩
          · rw [List.mem_singleton] at hxc
            subst hxc
            exact absurd hb2x (not_reach_of_mem_bases hb2)
    have hCrec : ∀ (l s : List OClass) (b y : OClass), sizeOf l ≤ N + 1 → b ∈ l →
        Reach b y →
        y ∈ (oldMroAux l s).2 ∨ ∃ x ∈ s, Reach x y ∧ ∃ b2 ∈ l, Reach b2 x := by
      intro l s b y hl hb hr
      match l with
      | [] => exact absurd hb (List.not_mem_nil b)
      | b0 :: bs =>
        have hsb0 : 0 < sizeOf b0 := OClass.sizeOf_pos b0
        have hsz : sizeOf (b0 :: bs) = 1 + sizeOf b0 + sizeOf bs := by simp
        have h1 : sizeOf b0.bases ≤ N := by
          have := OClass.sizeOf_bases_lt b0
          omega
        have h2 : sizeOf bs ≤ N := by omega
        have hb0N : sizeOf b0 ≤ N + 1 := by omega
        by_cases hb0 : b0 ∈ s
        · rw [oldMroAux_cons_mem bs s hb0]
          rcases List.mem_cons.mp hb with rfl | hbbs
          · exact Or.inr ⟨b, hb0, hr, b, List.mem_cons_self b bs, Reach.refl b⟩
          · rcases ihC bs s b y h2 hbbs hr with hy | ⟨x, hx, hxy, b2, hb2, hb2x⟩
            · exact Or.inl hy
            · exact Or.inr ⟨x, hx, hxy, b2, List.mem_cons_of_mem b0 hb2, hb2x⟩
        · rw [oldMroAux_cons_not_mem bs s hb0]
          simp only []
          rcases List.mem_cons.mp hb with rfl | hbbs
          · rcases hV b s y hb0N hr with hy | ⟨x, hx, hxy, hbx⟩
            · left
              rw [oldMroAux_seen_eq bs]
              exact List.mem_append_left _ hy
            · exact Or.inr ⟨x, hx, hxy, b, List.mem_cons_self b bs, hbx⟩
          · rcases ihC bs (oldMroAux b0.bases (s ++ [b0])).2 b y h2 hbbs hr with
              hy | ⟨x, hx, hxy, b2, hb2, hb2x⟩
            · exact Or.inl hy
            · rw [oldMroAux_seen_eq] at hx
              rcases List.mem_append.mp hx with hx1 | hx2
              · rcases List.mem_append.mp hx1 with hxs | hxb0
                · exact Or.inr ⟨x, hxs, hxy, b2, List.mem_cons_of_mem b0 hb2, hb2x⟩
                · rw [List.mem_singleton] at hxb0
                  subst hxb0
                  rcases hV x s y hb0N hxy with hy | ⟨z, hz, hzy, hxz⟩
                  · left
                    rw [oldMroAux_seen_eq bs]
                    exact List.mem_append_left _ hy
                  · exact Or.inr ⟨z, hz, hzy, x, List.mem_cons_self x bs, hxz⟩
              · rcases ihP b0.bases (s ++ [b0]) x y h1 hx2 hxy with
                  hy | ⟨w, hw, hwy, b3, hb3, hb3w⟩
                · left
                  rw [oldMroAux_seen_eq bs]
                  exact List.mem_append_left _ hy
                · rcases List.mem_append.mp hw with hws | hwb0
                  · exact Or.inr ⟨w, hws, hwy, b0, List.mem_cons_self b0 bs,
                      Reach.step hb3 hb3w⟩
                  · rw [List.mem_singleton] at hwb0
                    subst hwb0
                    exact absurd hb3w (not_reach_of_mem_bases hb3)
    have hPrec : ∀ (l s : List OClass) (x y : OClass), sizeOf l ≤ N + 1 →
        x ∈ (oldMroAux l s).1 → Reach x y →
        y ∈ (oldMroAux l s).2 ∨ ∃ z ∈ s, Reach z y ∧ ∃ b2 ∈ l, Reach b2 z := by
      intro l s x y hl hx hr
      match l with
      | [] => simp [oldMroAux_nil] at hx
      | b0 :: bs =>
        have hsb0 : 0 < sizeOf b0 := OClass.sizeOf_pos b0
        have hsz : sizeOf (b0 :: bs) = 1 + sizeOf b0 + sizeOf bs := by simp
        have h1 : sizeOf b0.bases ≤ N := by
          have := OClass.sizeOf_bases_lt b0
          omega
        have h2 : sizeOf bs ≤ N := by omega
        have hb0N : sizeOf b0 ≤ N + 1 := by omega
        by_cases hb0 : b0 ∈ s
        · rw [oldMroAux_cons_mem bs s hb0] at hx ⊢
          rcases ihP bs s x y h2 hx hr with hy | ⟨z, hz, hzy, b2, hb2, hb2z⟩
          · exact Or.inl hy
          · exact Or.inr ⟨z, hz, hzy, b2, List.mem_cons_of_mem b0 hb2, hb2z⟩
        · rw [oldMroAux_cons_not_mem bs s hb0] at hx ⊢
          simp only [List.mem_cons, List.mem_append] at hx
          rcases hx with (rfl | hx1) | hx2
          · rcases hV x s y hb0N hr with hy | ⟨z, hz, hzy, hxz⟩
            · left
              rw [oldMroAux_seen_eq bs]
              exact List.mem_append_left _ hy
            · exact Or.inr ⟨z, hz, hzy, x, List.mem_cons_self x bs, hxz⟩
          · rcases ihP b0.bases (s ++ [b0]) x y h1 hx1 hr with
              hy | ⟨w, hw, hwy, b3, hb3, hb3w⟩
            · left
              rw [oldMroAux_seen_eq bs]
              exact List.mem_append_left _ hy
            · rcases List.mem_append.mp hw with hws | hwb0
              · exact Or.inr ⟨w, hws, hwy, b0, List.mem_cons_self b0 bs,
                  Reach.step hb3 hb3w⟩
              · rw [List.mem_singleton] at hwb0
                subst hwb0
                exact absurd hb3w (not_reach_of_mem_bases hb3)
          · rcases ihP bs (oldMroAux b0.bases (s ++ [b0])).2 x y h2 hx2 hr with
              hy | ⟨z, hz, hzy, b2, hb2, hb2z⟩
            · exact Or.inl hy
            · rw [oldMroAux_seen_eq] at hz
              rcases List.mem_append.mp hz with hz1 | hz2
              · rcases List.mem_append.mp hz1 with hzs | hzb0
                · exact Or.inr ⟨z, hzs, hzy, b2, List.mem_cons_of_mem b0 hb2, hb2z⟩
                · rw [List.mem_singleton] at hzb0
                  subst hzb0
                  rcases hV z s y hb0N hzy with hy | ⟨w, hw, hwy, hzw⟩
                  · left
                    rw [oldMroAux_seen_eq bs]
                    exact List.mem_append_left _ hy
                  · exact Or.inr ⟨w, hw, hwy, z, List.mem_cons_self z bs, hzw⟩
              · rcases ihP b0.bases (s ++ [b0]) z y h1 hz2 hzy with
                  hy | ⟨w, hw, hwy, b3, hb3, hb3w⟩
                · left
                  rw [oldMroAux_seen_eq bs]
                  exact List.mem_append_left _ hy
                · rcases List.mem_append.mp hw with hws | hwb0
                  · exact Or.inr ⟨w, hws, hwy, b0, List.mem_cons_self b0 bs,
                      Reach.step hb3 hb3w⟩
                  · rw [List.mem_singleton] at hwb0
                    subst hwb0
                    exact absurd hb3w (not_reach_of_mem_bases hb3)
    exact ⟨hV, hCrec, hPrec⟩

/-- The old-style method resolution order computed by the source walk
contains exactly the ancestors of the class: itself, its bases, and so
on transitively, each exactly once thanks to the seen set (the walk is
complete even across diamonds, where a shared ancestor is skipped on
its second encounter). -/
theorem mem_get_oldstyle_mro (c y : OClass) :
    y ∈ get_oldstyle_mro c ↔ Reach c y := by
  constructor
  · intro h
    rcases List.mem_cons.mp h with rfl | h2
    · exact Reach.refl y
    · obtain ⟨b, hb, hr⟩ := oldMroAux_sound h2
      exact Reach.step hb hr
  · intro hr
    have hcov := (oldMroAux_cover (sizeOf c)).1 c [] y le_rfl hr
    rcases hcov with hy | ⟨x, hx, _⟩
    · rw [List.nil_append, oldMroAux_seen_eq] at hy
      exact List.mem_cons.mpr (by simpa using hy)
    · exact absurd hx (List.not_mem_nil x)

/-- The walk loop returns None exactly when no dict of the walked
chain declares the method. -/
theorem lookupLoop_eq_none_iff {α : Type} (l : List (PyDict α)) (m : String) :
    lookupLoop l m = none ↔ ∀ d ∈ l, d.declared m = none := by
  induction l with
  | nil => simp [lookupLoop]
  | cons c cs ih =>
    cases hf : c.findEntry m with
    | none => simp [lookupLoop, hf, PyDict.declared, ih]
    | some o =>
      cases o with
      | none => simp [lookupLoop, hf, PyDict.declared, ih]
      | some ts => simp [lookupLoop, hf, PyDict.declared]

/-- When the walk loop returns a list, some dict of the walked chain
declares the method with exactly that list. -/
theorem lookupLoop_eq_some {α : Type} {l : List (PyDict α)} {m : String}
    {ts : α} (h : lookupLoop l m = some ts) :
    ∃ d ∈ l, d.declared m = some ts := by
  induction l with
  | nil => simp [lookupLoop] at h
  | cons c cs ih =>
    rw [lookupLoop] at h
    cases hf : c.findEntry m with
    | none =>
      rw [hf] at h
      obtain ⟨d, hd, hds⟩ := ih h
      exact ⟨d, List.mem_cons_of_mem c hd, hds⟩
    | some o =>
      cases o with
      | none =>
        rw [hf] at h
        obtain ⟨d, hd, hds⟩ := ih h
        exact ⟨d, List.mem_cons_of_mem c hd, hds⟩
      | some ts2 =>
        rw [hf] at h
        injection h with h2
        exact ⟨c, List.mem_cons_self c cs, by simp [PyDict.declared, hf, h2]⟩

/-- C6: the allowlist lookup returns the declared coercion list when
the method carries an allow_from_sudo declaration on the class of the
object or on any ancestor class, and returns None exactly when no
class of the chain declares it - for the new-style branch (walking the
given method resolution order) and for the old-style branch (walking
the computed old-style resolution order, which covers the full
ancestor chain). -/
theorem C6_lookup_walks_full_chain (t : PyObj) (m : String) (c : OClass) :
    (get_sudo_argtypes t m = none ↔ ∀ d ∈ t.mro, d.declared m = none) ∧
    (∀ ts, get_sudo_argtypes t m = some ts → ∃ d ∈ t.mro, d.declared m = some ts) ∧
    (get_sudo_argtypes_old c m = none ↔
      ∀ y, Reach c y → (OClass.toDict y).declared m = none) ∧
    (∀ ts, get_sudo_argtypes_old c m = some ts →
      ∃ y, Reach c y ∧ (OClass.toDict y).declared m = some ts) := by
  refine ⟨lookupLoop_eq_none_iff t.mro m, fun ts h => lookupLoop_eq_some h, ?_, ?_⟩
  · unfold get_sudo_argtypes_old
    rw [lookupLoop_eq_none_iff]
    constructor
    · intro h y hr
      exact h (OClass.toDict y)
        (List.mem_map_of_mem _ ((mem_get_oldstyle_mro c y).mpr hr))
    · intro h d hd
      obtain ⟨y, hy, rfl⟩ := List.mem_map.mp hd
      exact h y ((mem_get_oldstyle_mro c y).mp hy)
  · intro ts h
    unfold get_sudo_argtypes_old at h
    obtain ⟨d, hd, hds⟩ := lookupLoop_eq_some h
    obtain ⟨y, hy, rfl⟩ := List.mem_map.mp hd
    exact ⟨y, (mem_get_oldstyle_mro c y).mp hy, hds⟩

/-- Concrete old-style ancestor-only declaring class A. -/
def oldA : OClass := .mk [("install_version", some [7])] []

/-- Concrete old-style class B inheriting A, declaring nothing. -/
def oldB : OClass := .mk [] [oldA]

/-- Concrete old-style class C inheriting A, with an undecorated
attribute. -/
def oldC : OClass := .mk [("other", none)] [oldA]

/-- Concrete old-style diamond tip D inheriting B and C. -/
def oldD : OClass := .mk [] [oldB, oldC]

/-- C6 witness: on the concrete diamond the computed old-style order
is D, B, A, C (the shared ancestor A is yielded once and skipped on
the second encounter), the lookup finds the declaration inherited from
A, and the characterization theorem applies. -/
theorem C6_lookup_walks_full_chain_witness :
    (get_oldstyle_mro oldD = [oldD, oldB, oldA, oldC]) ∧
    (get_sudo_argtypes_old oldD "install_version" = some [7]) ∧
    ((get_sudo_argtypes_old oldD "nope" = none) ↔
      ∀ y, Reach oldD y → (OClass.toDict y).declared "nope" = none) := by
  have hmro : get_oldstyle_mro oldD = [oldD, oldB, oldA, oldC] := by
    simp [get_oldstyle_mro, oldMroAux_cons_not_mem, oldMroAux_cons_mem, oldMroAux_nil,
      oldA, oldB, oldC, oldD, OClass.bases]
  refine ⟨hmro, ?_, (C6_lookup_walks_full_chain appTarget "nope" oldD).2.2.1⟩
  unfold get_sudo_argtypes_old
  rw [hmro]
  rfl
